import Mathlib

/-!
# Verification of the geometric kernel of the UAV forest-disease georeferencing simulator

This file gives a shallow embedding of the two kernel source files,
`core/georeferencing_engine.py` and `core/camera_model.py`, and proves
the specification claims about them.

The elevation-field / ray-terrain-intersection side
(`GeoreferencingEngine`) works over exact rationals `ℚ` (the Python
floats idealized to exact arithmetic), so every definition is
executable and concrete runs can be checked by `decide`.  The camera
side (`CameraModel`) needs trigonometric functions and Euclidean
norms, so it is embedded over `ℝ`.

Conventions carried over from the source:
* the DEM affine transform is axis-aligned (coefficients `b = d = 0`,
  as the spec's external-interface section assumes), so it is described
  by the four coefficients `a, c, e, f` of a `rasterio` affine
  transform: `world_x = c + a * col`, `world_y = f + e * row`;
* `scipy.interpolate.RegularGridInterpolator` (an external library the
  engine builds over `linspace`-generated, hence uniformly spaced,
  coordinate axes with `method='linear'`, `bounds_error=False`,
  `fill_value=nan`) is modelled by `interpElev`: out-of-range queries
  give `none` (the NaN fill), in-range queries bilinearly interpolate
  inside the cell of the uniform coordinate axes containing the query;
* `intersect_ray_with_dem` normalizes its direction with
  `np.linalg.norm`; the Euclidean norm of a rational vector is
  irrational in general, so the embedded intersector takes the
  direction as the source uses it after that step.  Its only caller in
  the kernel feeds it unit directions from `pixel_to_ray`, and the
  claims below quantify over arbitrary directions, so nothing is lost.
-/

/-! ## Rational 3-vectors -/

/-- A 3D point/vector with rational coordinates. -/
structure V3 where
  x : ℚ
  y : ℚ
  z : ℚ
  deriving DecidableEq, Repr

/-- Componentwise vector addition. -/
def V3.add (p q : V3) : V3 := ⟨p.x + q.x, p.y + q.y, p.z + q.z⟩

/-- Scalar multiplication. -/
def V3.smul (c : ℚ) (p : V3) : V3 := ⟨c * p.x, c * p.y, c * p.z⟩

/-- Midpoint of two points, `(p1 + p2) / 2` in the source. -/
def V3.mid (p q : V3) : V3 := V3.smul (1/2) (V3.add p q)

/-! ## The elevation field (`GeoreferencingEngine.__init__` state) -/

/-- The read-only state a `GeoreferencingEngine` is constructed with: a
`height × width` grid of elevation samples (`z row col`, row-major,
row 0 northmost) and the four axis-aligned affine coefficients. -/
structure Dem where
  height : ℕ
  width : ℕ
  z : ℕ → ℕ → ℚ
  a : ℚ
  c : ℚ
  e : ℚ
  f : ℚ

/-- `self.dem_bounds['min_x'] = self.transform.c`. -/
def Dem.min_x (d : Dem) : ℚ := d.c

/-- `self.dem_bounds['max_x'] = self.transform.c + self.transform.a * self.dem_width`. -/
def Dem.max_x (d : Dem) : ℚ := d.c + d.a * d.width

/-- `self.dem_bounds['min_y'] = self.transform.f + self.transform.e * self.dem_height`. -/
def Dem.min_y (d : Dem) : ℚ := d.f + d.e * d.height

/-- `self.dem_bounds['max_y'] = self.transform.f`. -/
def Dem.max_y (d : Dem) : ℚ := d.f

/-- The world-bounds membership test used both by
`get_elevation_at_point` and by the coarse march of
`intersect_ray_with_dem`:
`min_x <= x <= max_x and min_y <= y <= max_y`. -/
def inDemBounds (d : Dem) (x y : ℚ) : Prop :=
  d.min_x ≤ x ∧ x ≤ d.max_x ∧ d.min_y ≤ y ∧ y ≤ d.max_y

instance (d : Dem) (x y : ℚ) : Decidable (inDemBounds d x y) := by
  unfold inDemBounds; infer_instance

/-- The flattened list of all elevation samples of the grid. -/
def demSamples (d : Dem) : List ℚ :=
  (List.range d.height).flatMap (fun i => (List.range d.width).map (d.z i))

/-- `np.min(self.dem)` over a non-empty grid. -/
def demMin (d : Dem) : ℚ := (demSamples d).foldr min (d.z 0 0)

/-! ## The interpolator (`_create_interpolator` / RegularGridInterpolator) -/

/-- One axis of the `RegularGridInterpolator` built over
`np.linspace(lo, hi, n)`: given a query `q`, return `none` when `q` is
outside the axis range (the interpolator's NaN fill value), otherwise
the index of the cell containing `q` (clamped to `n - 2` so the upper
endpoint falls in the last cell) together with the fractional position
of `q` inside that cell.  The formula uses the normalized coordinate
`(q - lo) / (hi - lo)`, which for a uniform `linspace` axis is exact
for either an ascending or a descending axis. -/
def interpCell (lo hi : ℚ) (n : ℕ) (q : ℚ) : Option (ℕ × ℚ) :=
  if (lo ≤ q ∧ q ≤ hi) ∨ (hi ≤ q ∧ q ≤ lo) then
    let u : ℚ := (q - lo) / (hi - lo) * ((n : ℚ) - 1)
    let i : ℕ := min (Nat.floor u) (n - 2)
    some (i, u - i)
  else none

/-- The interpolation structure of the engine:
`RegularGridInterpolator((y_coords, x_coords), self.dem)` with
`y_coords = linspace(max_y, min_y, height)` (descending for a
north-up transform) and `x_coords = linspace(min_x, max_x, width)`,
evaluated at `[y, x]`.  `none` models the NaN it produces outside the
axes' ranges; otherwise the value is the bilinear interpolation of the
four surrounding grid samples. -/
def interpElev (d : Dem) (x y : ℚ) : Option ℚ :=
  match interpCell d.max_y d.min_y d.height y, interpCell d.min_x d.max_x d.width x with
  | some (i, ty), some (j, tx) =>
      some ((1 - ty) * ((1 - tx) * d.z i j + tx * d.z i (j+1)) +
            ty * ((1 - tx) * d.z (i+1) j + tx * d.z (i+1) (j+1)))
  | _, _ => none

/-- `get_elevation_at_point` (the primary, interpolator-backed path):
an explicit bounds check against `self.dem_bounds` first, then the
interpolator, whose NaN (here `none`) is also reported as `None`. -/
def get_elevation_at_point (d : Dem) (x y : ℚ) : Option ℚ :=
  if inDemBounds d x y then interpElev d x y else none

/-- The raw-grid fallback path of `get_elevation_at_point` (the code
after `# 回退到传统方法`): fractional `col, row` from the inverse
affine transform `~self.dem_transform * (x, y)`, a strict
`0 <= row < num_rows - 1 and 0 <= col < num_cols - 1` check, then
manual bilinear interpolation of the four surrounding cells. -/
def fallbackElev (d : Dem) (x y : ℚ) : Option ℚ :=
  let col : ℚ := (x - d.c) / d.a
  let row : ℚ := (y - d.f) / d.e
  if 0 ≤ row ∧ row < (d.height : ℚ) - 1 ∧ 0 ≤ col ∧ col < (d.width : ℚ) - 1 then
    let ri : ℕ := Nat.floor row
    let ci : ℕ := Nat.floor col
    let rf : ℚ := row - ri
    let cf : ℚ := col - ci
    let z_r1 : ℚ := (1 - cf) * d.z ri ci + cf * d.z ri (ci+1)
    let z_r2 : ℚ := (1 - cf) * d.z (ri+1) ci + cf * d.z (ri+1) (ci+1)
    some ((1 - rf) * z_r1 + rf * z_r2)
  else none

/-! ## The ray/terrain intersector -/

/-- The fall-through return of `_bisect_intersection` (reached when
the iteration budget is exhausted or a midpoint elevation query fails):
`final_point = (point1 + point2) / 2`, one more elevation query, and
`final_elev if final_elev else final_point[2]` — Python truthiness, so
both `None` and `0.0` select `final_point[2]`. -/
def bisect_final (d : Dem) (p1 p2 : V3) : V3 :=
  let fp := V3.mid p1 p2
  match get_elevation_at_point d fp.x fp.y with
  | some v => ⟨fp.x, fp.y, if v = 0 then fp.z else v⟩
  | none => ⟨fp.x, fp.y, fp.z⟩

/-- The iteration of `_bisect_intersection`, structurally recursive on
the remaining iteration budget.  A failed midpoint elevation query is
the source's `break` (drop to the final fall-through); meeting the
0.1 m tolerance returns the midpoint with its terrain elevation;
otherwise the half of the interval containing the crossing is kept.
`elev1`/`elev2` are carried exactly as in the source, which updates
but never reads them. -/
def bisectAux (d : Dem) : ℕ → V3 → V3 → ℚ → ℚ → V3
  | 0, p1, p2, _, _ => bisect_final d p1 p2
  | fuel+1, p1, p2, e1, e2 =>
    let mid := V3.mid p1 p2
    match get_elevation_at_point d mid.x mid.y with
    | none => bisect_final d p1 p2
    | some me =>
      if |mid.z - me| < 1/10 then ⟨mid.x, mid.y, me⟩
      else if me < mid.z then bisectAux d fuel mid p2 me e2
      else bisectAux d fuel p1 mid e1 me

/-- `_bisect_intersection(point1, point2, elev1, elev2, max_iter=10)`. -/
def bisect_intersection (d : Dem) (p1 p2 : V3) (e1 e2 : ℚ) : V3 :=
  bisectAux d 10 p1 p2 e1 e2

/-- The coarse march loop of `intersect_ray_with_dem`.  Each iteration
first advances `current_point` by `direction * step`, then checks the
world bounds (failure if outside), then queries the elevation (failure
if absent), and on the first at-or-below-terrain sample refines with
`_bisect_intersection` against the previous above-terrain sample — or,
when the very first sample is already at/below terrain (`prev` still
`none`), returns that sample's `(x, y)` with the terrain elevation as
`z`.  Running out of fuel is the `for` loop ending without a `return`,
i.e. `None`. -/
def marchAux (d : Dem) (dir : V3) (step : ℚ) :
    ℕ → V3 → Option (V3 × ℚ) → Option V3
  | 0, _, _ => none
  | fuel+1, cur, prev =>
    let c := V3.add cur (V3.smul step dir)
    if inDemBounds d c.x c.y then
      match get_elevation_at_point d c.x c.y with
      | none => none
      | some g =>
        if c.z ≤ g then
          match prev with
          | some (p, pe) => some (bisect_intersection d p c pe g)
          | none => some ⟨c.x, c.y, g⟩
        else marchAux d dir step fuel c (some (c, g))
    else none

/-- `step_size_coarse`: the caller-supplied step, or
`dem_resolution * 5.0` with `dem_resolution = max(|a|, |e|)`. -/
def coarseStep (d : Dem) (step_size : Option ℚ) : ℚ :=
  step_size.getD (max |d.a| |d.e| * 5)

/-- `max_steps`: the caller-supplied budget, or
`max(1000, int(estimated_ray_length / step_size_coarse) + 100)` with
`estimated_ray_length = (origin.z - min_elevation) / |direction.z|`. -/
def numSteps (d : Dem) (o dir : V3) (step_size : Option ℚ) (max_steps : Option ℕ) : ℕ :=
  max_steps.getD
    (max 1000 (((o.z - demMin d) / |dir.z| / coarseStep d step_size).floor + 100).toNat)

/-- `intersect_ray_with_dem(ray_origin, ray_direction, step_size, max_steps)`:
reject upward/horizontal rays (`direction.z >= 0`), reject an origin at
or below the lowest DEM sample (`vertical_distance <= 0`), then run the
coarse march (which itself invokes the bisection refinement). -/
def intersect_ray_with_dem (d : Dem) (o dir : V3)
    (step_size : Option ℚ) (max_steps : Option ℕ) : Option V3 :=
  if 0 ≤ dir.z then none
  else if o.z - demMin d ≤ 0 then none
  else marchAux d dir (coarseStep d step_size) (numSteps d o dir step_size max_steps) o none

/-- The `current_point` tested at iteration `k` (0-based) of the coarse
march: the origin advanced `k + 1` times by `direction * step`. -/
def marchSample (o dir : V3) (step : ℚ) (k : ℕ) : V3 :=
  V3.add o (V3.smul (((k : ℚ) + 1) * step) dir)

/-- A point strictly above the terrain with a defined, in-bounds
elevation — the situation in which the coarse march keeps going. -/
def abovePoint (d : Dem) (p : V3) : Prop :=
  inDemBounds d p.x p.y ∧
  ∃ g, get_elevation_at_point d p.x p.y = some g ∧ g < p.z

/-- The `k`-th march sample is above terrain (march continues past it). -/
def marchAbove (d : Dem) (o dir : V3) (step : ℚ) (k : ℕ) : Prop :=
  abovePoint d (marchSample o dir step k)

/-! ## Concrete elevation fields used as witnesses -/

/-- A flat 2×2 grid at elevation 0, world bounds `[0,2] × [0,2]`. -/
def flatDem : Dem :=
  { height := 2, width := 2, z := fun _ _ => 0, a := 1, c := 0, e := -1, f := 2 }

/-- The same flat grid displaced to world bounds `[10,12] × [0,2]`. -/
def farDem : Dem :=
  { height := 2, width := 2, z := fun _ _ => 0, a := 1, c := 10, e := -1, f := 2 }

/-- A 2×2 grid with one raised corner sample. -/
def bumpDem : Dem :=
  { height := 2, width := 2, z := fun i j => if i = 1 ∧ j = 1 then 16 else 0,
    a := 1, c := 0, e := -1, f := 2 }

/-- A flat 2×2 grid at constant elevation 7. -/
def constDem7 : Dem :=
  { height := 2, width := 2, z := fun _ _ => 7, a := 1, c := 0, e := -1, f := 2 }

/-! ## March-loop lemmas -/

/-- The first march sample is the origin advanced once. -/
theorem marchSample_zero (o dir : V3) (s : ℚ) :
    marchSample o dir s 0 = V3.add o (V3.smul s dir) := by
  simp only [marchSample, V3.add, V3.smul, V3.mk.injEq, Nat.cast_zero]
  exact ⟨by ring, by ring, by ring⟩

/-- Advancing the start by one step shifts the sample index by one. -/
theorem marchSample_shift (o dir : V3) (s : ℚ) (k : ℕ) :
    marchSample o dir s (k + 1) = marchSample (V3.add o (V3.smul s dir)) dir s k := by
  simp only [marchSample, V3.add, V3.smul, V3.mk.injEq, Nat.cast_add, Nat.cast_one]
  exact ⟨by ring, by ring, by ring⟩

/-- If every sample the budget allows is strictly above terrain (with a
defined in-bounds elevation), the march loop ends without returning. -/
theorem marchAux_none_of_above (d : Dem) (dir : V3) (s : ℚ) :
    ∀ (fuel : ℕ) (start : V3) (prev : Option (V3 × ℚ)),
      (∀ j < fuel, marchAbove d start dir s j) →
      marchAux d dir s fuel start prev = none := by
  intro fuel
  induction fuel with
  | zero => intro start prev _; rfl
  | succ n ih =>
    intro start prev h
    have h0 := h 0 (Nat.succ_pos n)
    rw [marchAbove, marchSample_zero] at h0
    obtain ⟨hb, g, hg, hlt⟩ := h0
    simp only [marchAux]
    rw [if_pos hb, hg]
    simp only
    rw [if_neg (not_le.mpr hlt)]
    apply ih
    intro j hj
    have hs := h (j + 1) (by omega)
    rw [marchAbove, marchSample_shift] at hs
    exact hs

/-- If some sample within the budget falls outside the world bounds and
every earlier sample was above terrain, the march loop fails. -/
theorem marchAux_none_of_escape (d : Dem) (dir : V3) (s : ℚ) :
    ∀ (fuel k : ℕ) (start : V3) (prev : Option (V3 × ℚ)),
      k < fuel →
      ¬ inDemBounds d (marchSample start dir s k).x (marchSample start dir s k).y →
      (∀ j < k, marchAbove d start dir s j) →
      marchAux d dir s fuel start prev = none := by
  intro fuel
  induction fuel with
  | zero => intro k start prev hk; omega
  | succ n ih =>
    intro k start prev hk hout habove
    cases k with
    | zero =>
      rw [marchSample_zero] at hout
      simp only [marchAux]
      rw [if_neg hout]
    | succ j =>
      have h0 := habove 0 (Nat.succ_pos j)
      rw [marchAbove, marchSample_zero] at h0
      obtain ⟨hb, g, hg, hlt⟩ := h0
      simp only [marchAux]
      rw [if_pos hb, hg]
      simp only
      rw [if_neg (not_le.mpr hlt)]
      rw [marchSample_shift] at hout
      apply ih j _ _ (by omega) hout
      intro i hi
      have hs := habove (i + 1) (by omega)
      rw [marchAbove, marchSample_shift] at hs
      exact hs


/-! ## Claims about the intersector -/

/-- C1: for every ray given to `intersect_ray_with_dem`, if the ray's
direction has z-component ≥ 0, or the ray origin's z is at most the
minimum elevation sample of the grid, the intersector returns `none`
before any marching, for any grid contents and step parameters. -/
theorem c1_early_rejection (d : Dem) (o dir : V3) (ss : Option ℚ) (ms : Option ℕ)
    (h : 0 ≤ dir.z ∨ o.z ≤ demMin d) :
    intersect_ray_with_dem d o dir ss ms = none := by
  unfold intersect_ray_with_dem
  rcases h with h | h
  · rw [if_pos h]
  · rcases le_or_lt 0 dir.z with h2 | h2
    · rw [if_pos h2]
    · rw [if_neg (not_le.mpr h2), if_pos (by linarith)]

/-- C1 witness: an upward ray (`direction.z = 1 ≥ 0`) over the flat
grid fails, and a downward ray whose origin sits at the grid's minimum
elevation (`origin.z = 0 = demMin`) also fails. -/
theorem c1_early_rejection_witness :
    intersect_ray_with_dem flatDem ⟨1, 1, 5⟩ ⟨0, 0, 1⟩ none none = none ∧
    intersect_ray_with_dem flatDem ⟨1, 1, 0⟩ ⟨0, 0, -1⟩ none none = none :=
  ⟨c1_early_rejection flatDem ⟨1, 1, 5⟩ ⟨0, 0, 1⟩ none none (Or.inl (by norm_num)),
   c1_early_rejection flatDem ⟨1, 1, 0⟩ ⟨0, 0, -1⟩ none none
     (Or.inr (by norm_num [demMin, demSamples, flatDem, List.range_succ]))⟩

/-- C2: for a ray accepted by validation, if the coarse march reaches a
sample outside the world bounds before any at-or-below-terrain sample,
or exhausts its step budget with every sample strictly above terrain,
then `intersect_ray_with_dem` returns `none`, never a partial point. -/
theorem c2_march_failure (d : Dem) (o dir : V3) (ss : Option ℚ) (ms : Option ℕ)
    (hdir : dir.z < 0) (hmin : demMin d < o.z) :
    ((∃ k < numSteps d o dir ss ms,
        ¬ inDemBounds d (marchSample o dir (coarseStep d ss) k).x
            (marchSample o dir (coarseStep d ss) k).y ∧
        ∀ j < k, marchAbove d o dir (coarseStep d ss) j) →
      intersect_ray_with_dem d o dir ss ms = none) ∧
    ((∀ k < numSteps d o dir ss ms, marchAbove d o dir (coarseStep d ss) k) →
      intersect_ray_with_dem d o dir ss ms = none) := by
  constructor
  · rintro ⟨k, hk, hout, habove⟩
    unfold intersect_ray_with_dem
    rw [if_neg (not_le.mpr hdir), if_neg (by linarith)]
    exact marchAux_none_of_escape d dir (coarseStep d ss)
      (numSteps d o dir ss ms) k o none hk hout habove
  · intro h
    unfold intersect_ray_with_dem
    rw [if_neg (not_le.mpr hdir), if_neg (by linarith)]
    exact marchAux_none_of_above d dir (coarseStep d ss)
      (numSteps d o dir ss ms) o none h

/-- C2 witness: from origin `(1,1,5)` the unit direction
`(3/5, 0, -4/5)` with step 10 puts the first sample at `(7, 1, -3)`,
outside the flat grid's `[0,2] × [0,2]` bounds, so the intersection
fails. -/
theorem c2_march_failure_witness :
    intersect_ray_with_dem flatDem ⟨1, 1, 5⟩ ⟨3/5, 0, -4/5⟩ (some 10) (some 3) = none :=
  (c2_march_failure flatDem ⟨1, 1, 5⟩ ⟨3/5, 0, -4/5⟩ (some 10) (some 3)
      (by norm_num) (by norm_num [demMin, demSamples, flatDem, List.range_succ])).1
    ⟨0, by norm_num [numSteps],
     by norm_num [inDemBounds, marchSample, coarseStep, V3.add, V3.smul, flatDem,
       Dem.min_x, Dem.max_x, Dem.min_y, Dem.max_y],
     fun j hj => absurd hj (Nat.not_lt_zero j)⟩

/-- C9: if the very first coarse-march sample is already at or below
the terrain, the bisection phase is skipped and the intersector
returns that sample's `(x, y)` with its z replaced by the terrain
elevation there. -/
theorem c9_first_sample_below (d : Dem) (o dir : V3) (ss : Option ℚ) (ms : Option ℕ)
    (hdir : dir.z < 0) (hmin : demMin d < o.z) (g : ℚ)
    (hb : inDemBounds d (marchSample o dir (coarseStep d ss) 0).x
        (marchSample o dir (coarseStep d ss) 0).y)
    (hg : get_elevation_at_point d (marchSample o dir (coarseStep d ss) 0).x
        (marchSample o dir (coarseStep d ss) 0).y = some g)
    (hc : (marchSample o dir (coarseStep d ss) 0).z ≤ g)
    (hm : 0 < numSteps d o dir ss ms) :
    intersect_ray_with_dem d o dir ss ms =
      some ⟨(marchSample o dir (coarseStep d ss) 0).x,
            (marchSample o dir (coarseStep d ss) 0).y, g⟩ := by
  unfold intersect_ray_with_dem
  rw [if_neg (not_le.mpr hdir), if_neg (by linarith)]
  obtain ⟨n, hn⟩ : ∃ n, numSteps d o dir ss ms = n + 1 :=
    ⟨numSteps d o dir ss ms - 1, by omega⟩
  rw [hn]
  rw [marchSample_zero] at hb hg hc
  simp only [marchAux]
  rw [if_pos hb, hg]
  simp only
  rw [if_pos hc, marchSample_zero]

/-- C9 witness: over the flat grid at elevation 0, a straight-down ray
from `(1,1,1)` with step 2 has its first sample at `(1,1,-1)`, already
below terrain; the result is `(1,1,0)` — the sample's `(x,y)` with the
terrain elevation as z, no bisection. -/
theorem c9_first_sample_below_witness :
    intersect_ray_with_dem flatDem ⟨1, 1, 1⟩ ⟨0, 0, -1⟩ (some 2) (some 5) =
      some ⟨1, 1, 0⟩ := by
  have hs : marchSample ⟨1, 1, 1⟩ ⟨0, 0, -1⟩ (coarseStep flatDem (some 2)) 0 = ⟨1, 1, -1⟩ := by
    norm_num [marchSample, coarseStep, V3.add, V3.smul]
  have h := c9_first_sample_below flatDem ⟨1, 1, 1⟩ ⟨0, 0, -1⟩ (some 2) (some 5)
    (by norm_num) (by norm_num [demMin, demSamples, flatDem, List.range_succ]) 0
    (by rw [hs]; norm_num [inDemBounds, flatDem, Dem.min_x, Dem.max_x, Dem.min_y, Dem.max_y])
    (by rw [hs]
        norm_num [get_elevation_at_point, inDemBounds, flatDem, Dem.min_x, Dem.max_x,
          Dem.min_y, Dem.max_y, interpElev, interpCell])
    (by rw [hs]; norm_num)
    (by norm_num [numSteps])
  rw [hs] at h
  exact h

/-- C10: in the fall-through return of `_bisect_intersection`, a final
terrain-elevation query returning exactly 0 is treated like an absent
(`None`) result, because Python tests the value's truthiness: the
returned z is the final midpoint's ray z, not the elevation 0. -/
theorem c10_zero_elevation_as_absent (d dn : Dem) (p1 p2 : V3)
    (h0 : get_elevation_at_point d (V3.mid p1 p2).x (V3.mid p1 p2).y = some 0)
    (hn : get_elevation_at_point dn (V3.mid p1 p2).x (V3.mid p1 p2).y = none) :
    bisect_final d p1 p2 = bisect_final dn p1 p2 ∧
    (bisect_final d p1 p2).z = (V3.mid p1 p2).z := by
  simp only [bisect_final]
  rw [h0, hn]
  simp

/-- C10 witness: at the midpoint `(1,1,3/2)` of `(0,0,1)`–`(2,2,2)`,
the flat grid at elevation 0 answers `some 0` and the displaced grid
answers `none`; the fall-through returns the same point for both, with
z equal to the midpoint's ray z `3/2`, not the elevation 0. -/
theorem c10_zero_elevation_as_absent_witness :
    bisect_final flatDem ⟨0, 0, 1⟩ ⟨2, 2, 2⟩ = bisect_final farDem ⟨0, 0, 1⟩ ⟨2, 2, 2⟩ ∧
    (bisect_final flatDem ⟨0, 0, 1⟩ ⟨2, 2, 2⟩).z = (V3.mid ⟨0, 0, 1⟩ ⟨2, 2, 2⟩).z :=
  c10_zero_elevation_as_absent flatDem farDem ⟨0, 0, 1⟩ ⟨2, 2, 2⟩
    (by norm_num [get_elevation_at_point, inDemBounds, flatDem, V3.mid, V3.add, V3.smul,
        Dem.min_x, Dem.max_x, Dem.min_y, Dem.max_y, interpElev, interpCell])
    (by norm_num [get_elevation_at_point, inDemBounds, farDem, V3.mid, V3.add, V3.smul,
        Dem.min_x, Dem.max_x, Dem.min_y, Dem.max_y])

/-! ## Claims about the elevation field -/

/-- When the query lies in the axis range, `interpCell` yields the
clamped cell index and fractional coordinate. -/
theorem interpCell_some (lo hi : ℚ) (n : ℕ) (q : ℚ)
    (h : (lo ≤ q ∧ q ≤ hi) ∨ (hi ≤ q ∧ q ≤ lo)) :
    interpCell lo hi n q =
      some (min (Nat.floor ((q - lo) / (hi - lo) * ((n : ℚ) - 1))) (n - 2),
            (q - lo) / (hi - lo) * ((n : ℚ) - 1) -
              (min (Nat.floor ((q - lo) / (hi - lo) * ((n : ℚ) - 1))) (n - 2) : ℕ)) := by
  unfold interpCell
  rw [if_pos h]

/-- The cell index produced by `interpCell` never exceeds `n - 2`. -/
theorem interpCell_idx_le (lo hi : ℚ) (n : ℕ) (q : ℚ) (i : ℕ) (t : ℚ)
    (h : interpCell lo hi n q = some (i, t)) : i ≤ n - 2 := by
  unfold interpCell at h
  split at h
  · rw [Option.some.injEq, Prod.mk.injEq] at h
    exact h.1 ▸ min_le_right _ _
  · exact absurd h (by simp)

/-- A bilinear combination of four equal samples `E`, taken inside the
grid (cell corner at most at index `height - 2` / `width - 2`), is `E`
for any fractional weights. -/
theorem constant_combo (d : Dem) (E : ℚ) (hh : 2 ≤ d.height) (hw : 2 ≤ d.width)
    (hconst : ∀ i < d.height, ∀ j < d.width, d.z i j = E)
    (i j : ℕ) (hi : i ≤ d.height - 2) (hj : j ≤ d.width - 2) (ty tx : ℚ) :
    (1 - ty) * ((1 - tx) * d.z i j + tx * d.z i (j+1)) +
      ty * ((1 - tx) * d.z (i+1) j + tx * d.z (i+1) (j+1)) = E := by
  rw [hconst i (by omega) j (by omega), hconst i (by omega) (j+1) (by omega),
      hconst (i+1) (by omega) j (by omega), hconst (i+1) (by omega) (j+1) (by omega)]
  ring

/-- C3: over a grid whose samples are all the constant `E` (at least
2×2, so the interpolation structure is constructible), the elevation
query returns `some E` at every point inside the precomputed world
bounds and `none` at every point outside them. -/
theorem c3_constant_grid (d : Dem) (E : ℚ)
    (hh : 2 ≤ d.height) (hw : 2 ≤ d.width)
    (hconst : ∀ i < d.height, ∀ j < d.width, d.z i j = E) (x y : ℚ) :
    (inDemBounds d x y → get_elevation_at_point d x y = some E) ∧
    (¬ inDemBounds d x y → get_elevation_at_point d x y = none) := by
  constructor
  · intro h
    unfold get_elevation_at_point
    rw [if_pos h]
    obtain ⟨h1, h2, h3, h4⟩ := h
    unfold interpElev
    rw [interpCell_some d.max_y d.min_y d.height y (Or.inr ⟨h3, h4⟩),
        interpCell_some d.min_x d.max_x d.width x (Or.inl ⟨h1, h2⟩)]
    simp only
    congr 1
    exact constant_combo d E hh hw hconst _ _ (min_le_right _ _) (min_le_right _ _) _ _
  · intro h
    unfold get_elevation_at_point
    rw [if_neg h]

/-- C3 witness: a 2×2 grid at constant elevation 7 with world bounds
`[0,2] × [0,2]` answers `some 7` at the in-bounds point `(1,1)` and
`none` at the out-of-bounds point `(5,5)`. -/
theorem c3_constant_grid_witness :
    get_elevation_at_point constDem7 1 1 = some 7 ∧
    get_elevation_at_point constDem7 5 5 = none :=
  ⟨(c3_constant_grid constDem7 7 (by norm_num [constDem7]) (by norm_num [constDem7])
      (fun i _ j _ => rfl) 1 1).1
    (by norm_num [inDemBounds, constDem7, Dem.min_x, Dem.max_x, Dem.min_y, Dem.max_y]),
   (c3_constant_grid constDem7 7 (by norm_num [constDem7]) (by norm_num [constDem7])
      (fun i _ j _ => rfl) 5 5).2
    (by norm_num [inDemBounds, constDem7, Dem.min_x, Dem.max_x, Dem.min_y, Dem.max_y])⟩

/-- C4 counterexample: the two elevation code paths disagree.  On the
2×2 grid `bumpDem` (one corner sample raised to 16), at the in-bounds
world point `(1/2, 3/2)`, the interpolation-structure path gives 1
while the raw-grid fallback gives 4: the interpolator spreads the
samples over `linspace` endpoints `[min_x, c + a*width]` (cell size
`a * width / (width-1)`), while the fallback places sample `(row,col)`
at the raw inverse-affine indices (cell size `a`). -/
theorem c4_paths_disagree :
    inDemBounds bumpDem (1/2) (3/2) ∧
    interpElev bumpDem (1/2) (3/2) = some 1 ∧
    fallbackElev bumpDem (1/2) (3/2) = some 4 := by
  have hf4 : ⌊(1:ℚ)/4⌋₊ = 0 := by norm_num
  have hf2 : ⌊(1:ℚ)/2⌋₊ = 0 := by norm_num
  refine ⟨by norm_num [inDemBounds, bumpDem, Dem.min_x, Dem.max_x, Dem.min_y, Dem.max_y], ?_, ?_⟩
  · norm_num [interpElev, interpCell, bumpDem, Dem.min_x, Dem.max_x, Dem.min_y, Dem.max_y]
    norm_num [hf4]
  · norm_num [fallbackElev, bumpDem]
    norm_num [hf2]

/-- C4 as amended: the two paths compute the same value only in
degenerate situations such as a constant grid — whenever both paths
return a value on a constant-`E` grid, both values are `E`.  (On
non-constant grids they differ, as `c4_paths_disagree` shows, because
they reconstruct different world positions for the same samples.) -/
theorem c4_amended_agree_on_constant (d : Dem) (E : ℚ)
    (hh : 2 ≤ d.height) (hw : 2 ≤ d.width)
    (hconst : ∀ i < d.height, ∀ j < d.width, d.z i j = E)
    (x y u v : ℚ)
    (hi : interpElev d x y = some u) (hf : fallbackElev d x y = some v) :
    u = E ∧ v = E := by
  constructor
  · unfold interpElev at hi
    rcases hcy : interpCell d.max_y d.min_y d.height y with _ | ⟨i, ty⟩
    · rw [hcy] at hi; simp at hi
    rcases hcx : interpCell d.min_x d.max_x d.width x with _ | ⟨j, tx⟩
    · rw [hcy, hcx] at hi; simp at hi
    rw [hcy, hcx, Option.some.injEq] at hi
    rw [← hi]
    exact constant_combo d E hh hw hconst i j
      (interpCell_idx_le _ _ _ _ _ _ hcy) (interpCell_idx_le _ _ _ _ _ _ hcx) ty tx
  · simp only [fallbackElev] at hf
    split at hf
    case isFalse => exact absurd hf (by simp)
    case isTrue hcond =>
      obtain ⟨hr0, hr1, hc0, hc1⟩ := hcond
      rw [Option.some.injEq] at hf
      have hrow : Nat.floor ((y - d.f) / d.e) + 1 < d.height := by
        have hle : (Nat.floor ((y - d.f) / d.e) : ℚ) ≤ (y - d.f) / d.e := Nat.floor_le hr0
        have : (Nat.floor ((y - d.f) / d.e) : ℚ) < (d.height : ℚ) - 1 := lt_of_le_of_lt hle hr1
        have := this.trans_le (le_refl _)
        exact_mod_cast by
          have h2 : (Nat.floor ((y - d.f) / d.e) : ℚ) + 1 < (d.height : ℚ) := by linarith
          exact_mod_cast h2
      have hcol : Nat.floor ((x - d.c) / d.a) + 1 < d.width := by
        have hle : (Nat.floor ((x - d.c) / d.a) : ℚ) ≤ (x - d.c) / d.a := Nat.floor_le hc0
        have h2 : (Nat.floor ((x - d.c) / d.a) : ℚ) + 1 < (d.width : ℚ) := by linarith
        exact_mod_cast h2
      rw [hconst _ (by omega) _ (by omega), hconst _ (by omega) _ (by omega),
          hconst _ (by omega) _ (by omega), hconst _ (by omega) _ (by omega)] at hf
      rw [← hf]; ring

/-- C4 amended witness: on the constant-7 grid, at `(1/2, 3/2)` both
paths are defined and both return 7. -/
theorem c4_amended_agree_on_constant_witness :
    interpElev constDem7 (1/2) (3/2) = some 7 ∧
    fallbackElev constDem7 (1/2) (3/2) = some 7 ∧ ((7:ℚ) = 7 ∧ (7:ℚ) = 7) := by
  have hf4 : ⌊(1:ℚ)/4⌋₊ = 0 := by norm_num
  have hf2 : ⌊(1:ℚ)/2⌋₊ = 0 := by norm_num
  have hint : interpElev constDem7 (1/2) (3/2) = some 7 := by
    norm_num [interpElev, interpCell, constDem7, Dem.min_x, Dem.max_x, Dem.min_y, Dem.max_y]
    norm_num [hf4]
  have hfb : fallbackElev constDem7 (1/2) (3/2) = some 7 := by
    norm_num [fallbackElev, constDem7]
    norm_num [hf2]
  exact ⟨hint, hfb,
    c4_amended_agree_on_constant constDem7 7 (by norm_num [constDem7]) (by norm_num [constDem7])
      (fun i _ j _ => rfl) (1/2) (3/2) 7 7 hint hfb⟩

/-! ## The camera model (`core/camera_model.py`), over `ℝ` -/

noncomputable section

/-- The state a `CameraModel` holds after `__init__`: intrinsics
(`focal_length_px`, sensor size, principal point — explicit here; the
source defaults it to the sensor center when absent) and extrinsics
(roll/pitch/yaw in degrees, world position). -/
structure Camera where
  f_px : ℝ
  w_px : ℝ
  h_px : ℝ
  cx : ℝ
  cy : ℝ
  roll : ℝ
  pitch : ℝ
  yaw : ℝ
  pos : Fin 3 → ℝ

/-- `np.deg2rad`. -/
def deg2rad (x : ℝ) : ℝ := x * (Real.pi / 180)

/-- The `Rx` roll matrix of `_create_rotation_matrix`. -/
def rotX (g : ℝ) : Matrix (Fin 3) (Fin 3) ℝ :=
  !![1, 0, 0; 0, Real.cos g, -Real.sin g; 0, Real.sin g, Real.cos g]

/-- The `Ry` pitch matrix of `_create_rotation_matrix`. -/
def rotY (b : ℝ) : Matrix (Fin 3) (Fin 3) ℝ :=
  !![Real.cos b, 0, Real.sin b; 0, 1, 0; -Real.sin b, 0, Real.cos b]

/-- The `Rz` yaw matrix of `_create_rotation_matrix`. -/
def rotZ (a : ℝ) : Matrix (Fin 3) (Fin 3) ℝ :=
  !![Real.cos a, -Real.sin a, 0; Real.sin a, Real.cos a, 0; 0, 0, 1]

/-- The fixed base-frame correction `R_base = diag(1, -1, -1)`,
negating the camera-local Y and Z axes. -/
def rBase : Matrix (Fin 3) (Fin 3) ℝ := !![1, 0, 0; 0, -1, 0; 0, 0, -1]

/-- `self.R_cam_to_world = (Rz @ Ry @ Rx) @ R_base` with angles
converted from degrees. -/
def R_cam_to_world (cam : Camera) : Matrix (Fin 3) (Fin 3) ℝ :=
  rotZ (deg2rad cam.yaw) * rotY (deg2rad cam.pitch) * rotX (deg2rad cam.roll) * rBase

/-- `np.linalg.norm` of a 3-vector. -/
def norm3 (w : Fin 3 → ℝ) : ℝ := Real.sqrt (w 0 ^ 2 + w 1 ^ 2 + w 2 ^ 2)

/-- The camera-local vector `(u - cx, cy - v, f_px)` built by
`pixel_to_ray` (vertical flip on v). -/
def pixelVec (cam : Camera) (u v : ℝ) : Fin 3 → ℝ :=
  ![u - cam.cx, cam.cy - v, cam.f_px]

/-- `pixel_to_ray(pixel_coord)`: rotate the camera-local vector into
the world frame; if its norm is below `1e-9` return the defensive
fallback `(origin, (0,0,-1))`, otherwise normalize. -/
def pixel_to_ray (cam : Camera) (u v : ℝ) : (Fin 3 → ℝ) × (Fin 3 → ℝ) :=
  let dw := (R_cam_to_world cam).mulVec (pixelVec cam u v)
  if norm3 dw < 1 / 1000000000 then (cam.pos, ![0, 0, -1])
  else (cam.pos, fun i => dw i / norm3 dw)

/-- `world_to_camera_batch` per point: translate by the camera
position, then apply the transpose of the camera-to-world rotation.
`world_to_pixel` computes this same expression inline. -/
def world_to_camera (cam : Camera) (p : Fin 3 → ℝ) : Fin 3 → ℝ :=
  (Matrix.transpose (R_cam_to_world cam)).mulVec (fun i => p i - cam.pos i)

/-- `world_to_pixel(world_point)`: camera-frame conversion, reject
points with camera-frame Z ≤ 0, perspective division, intrinsics with
vertical flip, and the `0 <= u < w and 0 <= v < h` sensor-bounds
check. -/
def world_to_pixel (cam : Camera) (p : Fin 3 → ℝ) : Option (ℝ × ℝ) :=
  let pc := world_to_camera cam p
  if pc 2 ≤ 0 then none
  else
    let u := cam.f_px * (pc 0 / pc 2) + cam.cx
    let v := cam.cy - cam.f_px * (pc 1 / pc 2)
    if 0 ≤ u ∧ u < cam.w_px ∧ 0 ≤ v ∧ v < cam.h_px then some (u, v) else none

/-- `project_points_batch(world_points)`, scalarized over a list: each
point gets `((pixel_x, pixel_y), valid)`; points behind the camera
(`Z <= 0`) or out of sensor bounds keep the zero-initialized pixel
coordinates and `valid = false`. -/
def project_points_batch (cam : Camera) (pts : List (Fin 3 → ℝ)) :
    List ((ℝ × ℝ) × Bool) :=
  pts.map (fun p =>
    let pc := world_to_camera cam p
    if 0 < pc 2 then
      let px := cam.f_px * (pc 0 / pc 2) + cam.cx
      let py := cam.cy - cam.f_px * (pc 1 / pc 2)
      if 0 ≤ px ∧ px < cam.w_px ∧ 0 ≤ py ∧ py < cam.h_px then ((px, py), true)
      else ((0, 0), false)
    else ((0, 0), false))

end

theorem rotX_orth (g : ℝ) : Matrix.transpose (rotX g) * rotX g = 1 := by
  ext i j
  fin_cases i <;> fin_cases j <;>
    simp [rotX, Matrix.transpose, Matrix.mul_apply, Fin.sum_univ_three, Matrix.one_apply,
      Matrix.of_apply, Matrix.vecHead, Matrix.vecTail] <;>
    nlinarith [Real.sin_sq_add_cos_sq g]

theorem rotY_orth (b : ℝ) : Matrix.transpose (rotY b) * rotY b = 1 := by
  ext i j
  fin_cases i <;> fin_cases j <;>
    simp [rotY, Matrix.transpose, Matrix.mul_apply, Fin.sum_univ_three, Matrix.one_apply,
      Matrix.of_apply, Matrix.vecHead, Matrix.vecTail] <;>
    nlinarith [Real.sin_sq_add_cos_sq b]

theorem rotZ_orth (a : ℝ) : Matrix.transpose (rotZ a) * rotZ a = 1 := by
  ext i j
  fin_cases i <;> fin_cases j <;>
    simp [rotZ, Matrix.transpose, Matrix.mul_apply, Fin.sum_univ_three, Matrix.one_apply,
      Matrix.of_apply, Matrix.vecHead, Matrix.vecTail] <;>
    nlinarith [Real.sin_sq_add_cos_sq a]

theorem rBase_orth : Matrix.transpose rBase * rBase = 1 := by
  ext i j
  fin_cases i <;> fin_cases j <;>
    simp [rBase, Matrix.transpose, Matrix.mul_apply, Fin.sum_univ_three, Matrix.one_apply,
      Matrix.of_apply, Matrix.vecHead, Matrix.vecTail]

theorem orth_mul {A B : Matrix (Fin 3) (Fin 3) ℝ}
    (hA : Matrix.transpose A * A = 1) (hB : Matrix.transpose B * B = 1) :
    Matrix.transpose (A * B) * (A * B) = 1 := by
  rw [Matrix.transpose_mul, Matrix.mul_assoc, ← Matrix.mul_assoc (Matrix.transpose A), hA,
    Matrix.one_mul, hB]

theorem R_orth (cam : Camera) :
    Matrix.transpose (R_cam_to_world cam) * R_cam_to_world cam = 1 := by
  unfold R_cam_to_world
  exact orth_mul (orth_mul (orth_mul (rotZ_orth _) (rotY_orth _)) (rotX_orth _)) rBase_orth

theorem R_mulVec_cancel (cam : Camera) (w : Fin 3 → ℝ) :
    (Matrix.transpose (R_cam_to_world cam)).mulVec ((R_cam_to_world cam).mulVec w) = w := by
  rw [Matrix.mulVec_mulVec, R_orth, Matrix.one_mulVec]

/-- A nonzero-norm 3-vector divided by its own norm has norm 1. -/
theorem norm3_normalize (w : Fin 3 → ℝ) (h : 0 < norm3 w) :
    norm3 (fun i => w i / norm3 w) = 1 := by
  have hS : 0 < w 0 ^ 2 + w 1 ^ 2 + w 2 ^ 2 := by
    have := Real.sqrt_pos.mp h
    exact this
  show Real.sqrt ((w 0 / norm3 w) ^ 2 + (w 1 / norm3 w) ^ 2 + (w 2 / norm3 w) ^ 2) = 1
  rw [div_pow, div_pow, div_pow, div_add_div_same, div_add_div_same]
  rw [show norm3 w ^ 2 = w 0 ^ 2 + w 1 ^ 2 + w 2 ^ 2 from Real.sq_sqrt hS.le]
  rw [div_self hS.ne']
  exact Real.sqrt_one

/-- C6: for every pixel, `pixel_to_ray` returns a unit-length
direction: the normalized rotation of the camera-local vector
`(u - cx, cy - v, f_px)` in the non-degenerate branch, and the
fallback `(0, 0, -1)` (also unit length) when the rotated vector's
norm falls below `1e-9`. -/
theorem c6_pixel_to_ray_unit (cam : Camera) (u v : ℝ) :
    norm3 (pixel_to_ray cam u v).2 = 1 := by
  simp only [pixel_to_ray]
  split
  case isTrue h =>
    show norm3 ![0, 0, -1] = 1
    unfold norm3
    norm_num
  case isFalse h =>
    exact norm3_normalize _ (lt_of_lt_of_le (by norm_num) (not_lt.mp h))

/-- C7: for every pixel inside the sensor bounds and every camera with
positive focal length whose rotated pixel vector is not degenerate
(norm at least `1e-9`), projecting any point `origin + t * direction`
(`t > 0`) of the ray from `pixel_to_ray` back through `world_to_pixel`
recovers the original pixel exactly. -/
theorem c7_roundtrip (cam : Camera) (u v t : ℝ)
    (hf : 0 < cam.f_px)
    (hnd : ¬ norm3 ((R_cam_to_world cam).mulVec (pixelVec cam u v)) < 1 / 1000000000)
    (ht : 0 < t)
    (hu0 : 0 ≤ u) (hu1 : u < cam.w_px) (hv0 : 0 ≤ v) (hv1 : v < cam.h_px) :
    world_to_pixel cam (fun i => cam.pos i + t * (pixel_to_ray cam u v).2 i) = some (u, v) := by
  set n := norm3 ((R_cam_to_world cam).mulVec (pixelVec cam u v)) with hn_eq
  have hn : 0 < n := lt_of_lt_of_le (by norm_num) (not_lt.mp hnd)
  have hdir : (pixel_to_ray cam u v).2 =
      fun i => (R_cam_to_world cam).mulVec (pixelVec cam u v) i / n := by
    simp only [pixel_to_ray]
    rw [if_neg (hn_eq ▸ hnd)]
  rw [hdir]
  simp only [world_to_pixel, world_to_camera]
  have harg : (fun i => (cam.pos i + t * ((R_cam_to_world cam).mulVec (pixelVec cam u v) i / n)) - cam.pos i)
      = (t / n) • (R_cam_to_world cam).mulVec (pixelVec cam u v) := by
    funext i
    simp only [Pi.smul_apply, smul_eq_mul]
    ring
  rw [harg, Matrix.mulVec_smul, R_mulVec_cancel]
  have h0 : ((t / n) • pixelVec cam u v) 0 = (t / n) * (u - cam.cx) := by
    simp [pixelVec]
  have h1 : ((t / n) • pixelVec cam u v) 1 = (t / n) * (cam.cy - v) := by
    simp [pixelVec]
  have h2 : ((t / n) • pixelVec cam u v) 2 = (t / n) * cam.f_px := by
    simp [pixelVec]
  have htn : 0 < t / n := div_pos ht hn
  have hpc2 : 0 < ((t / n) • pixelVec cam u v) 2 := by rw [h2]; positivity
  rw [if_neg (not_le.mpr hpc2)]
  have hu' : cam.f_px * (((t / n) • pixelVec cam u v) 0 / ((t / n) • pixelVec cam u v) 2) + cam.cx = u := by
    rw [h0, h2, mul_div_mul_left _ _ htn.ne']
    field_simp
  have hv' : cam.cy - cam.f_px * (((t / n) • pixelVec cam u v) 1 / ((t / n) • pixelVec cam u v) 2) = v := by
    rw [h1, h2, mul_div_mul_left _ _ htn.ne']
    field_simp
  rw [hu', hv', if_pos ⟨hu0, hu1, hv0, hv1⟩]

/-- `Rx` at angle 0 is the identity. -/
theorem rotX_zero : rotX 0 = 1 := by
  ext i j
  fin_cases i <;> fin_cases j <;> simp [rotX, Matrix.one_apply, Matrix.vecHead, Matrix.vecTail]

/-- `Ry` at angle 0 is the identity. -/
theorem rotY_zero : rotY 0 = 1 := by
  ext i j
  fin_cases i <;> fin_cases j <;> simp [rotY, Matrix.one_apply, Matrix.vecHead, Matrix.vecTail]

/-- `Rz` at angle 0 is the identity. -/
theorem rotZ_zero : rotZ 0 = 1 := by
  ext i j
  fin_cases i <;> fin_cases j <;> simp [rotZ, Matrix.one_apply, Matrix.vecHead, Matrix.vecTail]

/-- A nadir camera with zero roll/pitch/yaw, focal length 1 px, a 2×2
sensor with principal point (1,1), at the world origin. -/
noncomputable def camNadir : Camera :=
  { f_px := 1, w_px := 2, h_px := 2, cx := 1, cy := 1,
    roll := 0, pitch := 0, yaw := 0, pos := ![0, 0, 0] }

/-- C7 witness: for the nadir camera, the ray through the center pixel
`(1,1)` advanced by `t = 1` reprojects to `(1,1)`. -/
theorem c7_roundtrip_witness :
    world_to_pixel camNadir (fun i => camNadir.pos i + 1 * (pixel_to_ray camNadir 1 1).2 i) =
      some (1, 1) := by
  have hR : R_cam_to_world camNadir = rBase := by
    simp [R_cam_to_world, camNadir, deg2rad, rotX_zero, rotY_zero, rotZ_zero]
  have hvec : pixelVec camNadir 1 1 = ![0, 0, 1] := by
    funext i
    fin_cases i <;> simp [pixelVec, camNadir]
  have hmv : (R_cam_to_world camNadir).mulVec (pixelVec camNadir 1 1) = ![0, 0, -1] := by
    rw [hR, hvec]
    funext i
    fin_cases i <;> simp [rBase, Matrix.mulVec, Matrix.dotProduct, Fin.sum_univ_three]
  apply c7_roundtrip camNadir 1 1 1 (by norm_num [camNadir]) ?_ (by norm_num)
    (by norm_num) (by norm_num [camNadir]) (by norm_num) (by norm_num [camNadir])
  rw [hmv]
  unfold norm3
  norm_num

/-- C8: the single-point `world_to_pixel` and the batch
`project_points_batch` applied to the one-element list agree:
a projectable point yields the same pixel with `valid = true`, while a
point behind the camera or out of sensor bounds yields the
zero-initialized pixel `(0,0)` with `valid = false`. -/
theorem c8_batch_single_agree (cam : Camera) (p : Fin 3 → ℝ) :
    project_points_batch cam [p] =
      [match world_to_pixel cam p with
       | some px => (px, true)
       | none => ((0, 0), false)] := by
  simp only [project_points_batch, world_to_pixel, List.map]
  rcases le_or_lt (world_to_camera cam p 2) 0 with h | h
  · rw [if_neg (not_lt.mpr h), if_pos h]
  · rw [if_pos h, if_neg (not_le.mpr h)]
    by_cases hb : 0 ≤ cam.f_px * (world_to_camera cam p 0 / world_to_camera cam p 2) + cam.cx ∧
        cam.f_px * (world_to_camera cam p 0 / world_to_camera cam p 2) + cam.cx < cam.w_px ∧
        0 ≤ cam.cy - cam.f_px * (world_to_camera cam p 1 / world_to_camera cam p 2) ∧
        cam.cy - cam.f_px * (world_to_camera cam p 1 / world_to_camera cam p 2) < cam.h_px
    · rw [if_pos hb, if_pos hb]
    · rw [if_neg hb, if_neg hb]

/-! ## Ground coverage (`compute_ground_coverage`) -/

noncomputable section

/-- The four image corners cast by `compute_ground_coverage`, in
source order: top-left, top-right, bottom-right, bottom-left. -/
def image_corners (cam : Camera) : List (ℝ × ℝ) :=
  [(0, 0), (cam.w_px - 1, 0), (cam.w_px - 1, cam.h_px - 1), (0, cam.h_px - 1)]

/-- One corner of the coverage loop: cast the pixel ray, reject a ray
(near-)parallel to the ground plane (`|direction.z| < 1e-9`) or an
intersection behind the camera (`t < 0`), otherwise return the world
`(x, y)` of `origin + t * direction` with
`t = (ground_elevation - origin.z) / direction.z`. -/
def corner_plane_point (cam : Camera) (ground_elevation : ℝ) (uv : ℝ × ℝ) : Option (ℝ × ℝ) :=
  let pr := pixel_to_ray cam uv.1 uv.2
  if |pr.2 2| < 1 / 1000000000 then none
  else
    let t := (ground_elevation - pr.1 2) / pr.2 2
    if t < 0 then none
    else some (pr.1 0 + t * pr.2 0, pr.1 1 + t * pr.2 1)

/-- The centroid of a footprint (`np.mean` of the x and of the y
coordinates). -/
def centroid2 (fp : List (ℝ × ℝ)) : ℝ × ℝ :=
  ((fp.map Prod.fst).sum / fp.length, (fp.map Prod.snd).sum / fp.length)

/-- The coverage radius: the mean Euclidean distance from the centroid
of the footprint points to each point. -/
def meanCornerRadius (fp : List (ℝ × ℝ)) : ℝ :=
  (fp.map (fun p =>
    Real.sqrt ((p.1 - (centroid2 fp).1) ^ 2 + (p.2 - (centroid2 fp).2) ^ 2))).sum / fp.length

/-- `compute_ground_coverage(ground_elevation)`: empty footprint and
radius 0 when the camera is at or below the ground plane
(`height_agl <= 0`); otherwise the four corner rays are intersected
with the plane, and unless all four succeed the result is again empty
with radius 0. -/
def compute_ground_coverage (cam : Camera) (ground_elevation : ℝ) : List (ℝ × ℝ) × ℝ :=
  if cam.pos 2 - ground_elevation ≤ 0 then ([], 0)
  else
    let footprint := (image_corners cam).filterMap (corner_plane_point cam ground_elevation)
    if footprint.length ≠ 4 then ([], 0)
    else (footprint, meanCornerRadius footprint)

end

/-- A `filterMap` over a four-element list keeps all four elements
exactly when the function succeeds on each of them. -/
theorem filterMap_four {α β : Type} (g : α → Option β) (a b c d : α)
    (h : ([a, b, c, d].filterMap g).length = 4) :
    ∀ x ∈ [a, b, c, d], (g x).isSome := by
  intro x hx
  simp only [List.mem_cons, List.not_mem_nil, or_false] at hx
  rcases ha : g a with _ | va <;> rcases hb : g b with _ | vb <;>
    rcases hc : g c with _ | vc <;> rcases hd : g d with _ | vd <;>
    simp [List.filterMap_cons, ha, hb, hc, hd] at h <;>
    rcases hx with rfl | rfl | rfl | rfl <;> simp [ha, hb, hc, hd]

/-- A corner that contributes a footprint point passed both guards:
its ray is not near-parallel to the ground plane and its plane
intersection is not behind the camera. -/
theorem corner_conditions (cam : Camera) (E : ℝ) (uv : ℝ × ℝ)
    (h : (corner_plane_point cam E uv).isSome) :
    ¬ |(pixel_to_ray cam uv.1 uv.2).2 2| < 1 / 1000000000 ∧
    ¬ (E - (pixel_to_ray cam uv.1 uv.2).1 2) / (pixel_to_ray cam uv.1 uv.2).2 2 < 0 := by
  simp only [corner_plane_point] at h
  constructor
  · intro hc
    rw [if_pos hc] at h
    simp at h
  · intro hc
    by_cases h1 : |(pixel_to_ray cam uv.1 uv.2).2 2| < 1 / 1000000000
    · rw [if_pos h1] at h
      simp at h
    · rw [if_neg h1, if_pos hc] at h
      simp at h

/-- C5: `compute_ground_coverage` returns the empty footprint and
radius 0 whenever the camera is at or below the ground elevation; it
returns a non-empty footprint only when all four corner rays pass both
plane-intersection guards (`|direction.z|` not below `1e-9`, parameter
`t` not negative), and then the radius is the mean Euclidean distance
from the footprint's centroid to its points. -/
theorem c5_ground_coverage (cam : Camera) (E : ℝ) :
    (cam.pos 2 ≤ E → compute_ground_coverage cam E = ([], 0)) ∧
    ((compute_ground_coverage cam E).1 ≠ [] →
      (∀ uv ∈ image_corners cam,
          ¬ |(pixel_to_ray cam uv.1 uv.2).2 2| < 1 / 1000000000 ∧
          ¬ (E - (pixel_to_ray cam uv.1 uv.2).1 2) / (pixel_to_ray cam uv.1 uv.2).2 2 < 0) ∧
      (compute_ground_coverage cam E).2 =
        meanCornerRadius (compute_ground_coverage cam E).1) := by
  constructor
  · intro h
    simp only [compute_ground_coverage]
    rw [if_pos (by linarith)]
  · intro hne
    by_cases h1 : cam.pos 2 - E ≤ 0
    · exact absurd (by simp only [compute_ground_coverage]; rw [if_pos h1]) hne
    by_cases h2 : ((image_corners cam).filterMap (corner_plane_point cam E)).length ≠ 4
    · refine absurd ?_ hne
      simp only [compute_ground_coverage]
      rw [if_neg h1, if_pos h2]
    have hres : compute_ground_coverage cam E =
        ((image_corners cam).filterMap (corner_plane_point cam E),
         meanCornerRadius ((image_corners cam).filterMap (corner_plane_point cam E))) := by
      simp only [compute_ground_coverage]
      rw [if_neg h1, if_neg h2]
    constructor
    · intro uv huv
      have hlen : ((image_corners cam).filterMap (corner_plane_point cam E)).length = 4 :=
        not_not.mp h2
      simp only [image_corners] at hlen huv
      exact corner_conditions cam E uv
        (filterMap_four (corner_plane_point cam E) _ _ _ _ hlen uv huv)
    · rw [hres]

/-- C5 witness: the nadir camera sits at altitude 0, so against ground
elevation 0 (camera at the ground) the coverage is empty with
radius 0. -/
theorem c5_ground_coverage_witness :
    compute_ground_coverage camNadir 0 = ([], 0) :=
  (c5_ground_coverage camNadir 0).1 (by simp [camNadir])
